import Mathlib

/-!
Verification of the grouped-softmax quantum neural-network classifier
(`skqulacs/qnn/classifier.py`): target encoding bookkeeping, the
grouped-softmax cost function, the analytic gradient engine, the custom
Adam-style mini-batch driver, and the decoder.

Real-valued code is embedded over `ℝ`; numpy arrays of reals become
`List ℝ` or `ℕ → ℝ`; in-place mutation becomes explicit state passing.
-/

namespace SkQNN

open List

/-- `get_y_scale_param` (classifier.py, lines 220-230): from the per-group
category counts (the lengths of `enc.categories_`), build `syurui`
(the list of group sizes) and `syurui_rui` (the running cumulative sums,
starting at 0).  The loop accumulating `genkaz` is `List.scanl (+) 0`. -/
def get_y_scale_param (cats : List ℕ) : List ℕ × List ℕ :=
  (cats, List.scanl (fun a b => a + b) 0 cats)

/-- The inner two loops of `cost_func` (lines 202-207) for one group:
`wa` is the sum of `exp(y_exp_ratio * r[hid+k])` over the group's `s`
entries, and the group contributes the list of `exp(...) / wa`.
This is also the spec's per-group softmax formula `p_k`. -/
noncomputable def softmaxGroup (γ : ℝ) (s hid : ℕ) (r : ℕ → ℝ) : List ℝ :=
  (List.range s).map fun k =>
    Real.exp (γ * r (hid + k)) / ∑ kk ∈ Finset.range s, Real.exp (γ * r (hid + kk))

/-- The per-sample `ypf` construction of `cost_func` (lines 201-207):
loop over group indices `j`, appending group `j`'s softmax block. -/
noncomputable def ypfSample (γ : ℝ) (sizes offsets : List ℕ) (r : ℕ → ℝ) : List ℝ :=
  (List.range sizes.length).foldl
    (fun acc j => acc ++ softmaxGroup γ (sizes.getD j 0) (offsets.getD j 0) r) []

/-- `cost_func` (lines 195-214), `log_loss` branch, as a function of the
per-sample raw predictions `preds` (the `_predict_inner` output, one
`ℕ → ℝ` of per-qubit expectation values per sample): build `ypf` by
appending each sample's grouped-softmax vector, flatten `y_scaled` to
`ysf`, subtract `log (ypf i)` at every position where `ysf i == 1`, and
divide by `len(ysf)`. -/
noncomputable def cost_func (γ : ℝ) (sizes offsets : List ℕ)
    (preds : List (ℕ → ℝ)) (ys : List (List ℝ)) : ℝ :=
  let ypf := (preds.map (fun r => ypfSample γ sizes offsets r)).flatten
  let ysf := ys.flatten
  (∑ i ∈ Finset.range ysf.length,
      if ysf.getD i 0 = 1 then -Real.log (ypf.getD i 0) else 0) / (ysf.length : ℝ)

/-- The claim's reading of the total cost: the same sum of `-log p` over
one-hot positions whose target is 1, but divided by the number of samples
in the batch (`ys.length`) rather than by the flattened length. -/
noncomputable def cost_func_claimC1 (γ : ℝ) (sizes offsets : List ℕ)
    (preds : List (ℕ → ℝ)) (ys : List (List ℝ)) : ℝ :=
  let ypf := (preds.map (fun r => ypfSample γ sizes offsets r)).flatten
  let ysf := ys.flatten
  (∑ i ∈ Finset.range ysf.length,
      if ysf.getD i 0 = 1 then -Real.log (ypf.getD i 0) else 0) / (ys.length : ℝ)

/-- The inner argmax loop of `rev_y_scale` (lines 238-243): fold over
`k = 0..s-1` keeping `(sai, arg)`, starting from the sentinel
`sai = -99998888`, `arg = 0`, replacing the pair whenever the strict
comparison `sai < y_inr[i][hid+k]` holds. -/
noncomputable def argmaxLoop (s hid : ℕ) (y : ℕ → ℝ) : ℝ × ℕ :=
  (List.range s).foldl
    (fun p k => if p.1 < y (hid + k) then (y (hid + k), k) else p)
    (-99998888, 0)

/-- One row of `rev_y_scale` (lines 232-245): for each group `j`, the
`arg` produced by the argmax loop over the group's entries. -/
noncomputable def rev_y_scale_row (sizes offsets : List ℕ) (y : ℕ → ℝ) : List ℕ :=
  (List.range sizes.length).map fun j =>
    (argmaxLoop (sizes.getD j 0) (offsets.getD j 0) y).2

/-- The in-place softmax overwrite of one group inside `_cost_func_grad`
(lines 253-259): compute `wa` from the current array, then overwrite the
group's `s` cells one at a time with `exp(γ * mto[hid+k]) / wa`, each
read happening before its own write. -/
noncomputable def applyGroup (γ : ℝ) (s hid : ℕ) (a : ℕ → ℝ) : ℕ → ℝ :=
  let wa := ∑ k ∈ Finset.range s, Real.exp (γ * a (hid + k))
  (List.range s).foldl
    (fun b k => Function.update b (hid + k) (Real.exp (γ * b (hid + k)) / wa)) a

/-- The full in-place conversion of one sample's raw prediction row `mto[h]`
into grouped-softmax probabilities (`_cost_func_grad`, lines 253-259):
fold `applyGroup` over the group indices in order. -/
noncomputable def softmaxInPlace (γ : ℝ) (sizes offsets : List ℕ) (r : ℕ → ℝ) : ℕ → ℝ :=
  (List.range sizes.length).foldl
    (fun a j => applyGroup γ (sizes.getD j 0) (offsets.getD j 0) a) r

/-- Modelled from the spec: the Circuit Adapter (`LearningCircuit`), an
external collaborator whose code is not under `src/`.  Per the spec,
`run` reads the state prepared from input `x` at the current parameters
and has no side effect on them; `backprop` returns a per-parameter
gradient for a weighted observable and is side-effect-free apart from
possibly mutating the shared ParameterVector, so its effect on the
parameters (`bpParams`) is kept abstract; `update_parameters` overwrites
the ParameterVector.  `run x θ i` is the expectation value `⟨Z_i⟩`. -/
structure Adapter where
  run : List ℝ → List ℝ → ℕ → ℝ
  bpGrad : List ℝ → List ℝ → (ℕ → ℝ) → ℕ → ℝ
  bpParams : List ℝ → List ℝ → (ℕ → ℝ) → List ℝ

/-- The weighted observable built for sample `h` in `_cost_func_grad`
(lines 261-265): weight `(mto[h][i] - y_scaled[h][i]) * y_exp_ratio` on
`Z i` for `i < len(y_scaled[0])`, no operator elsewhere. -/
noncomputable def gradObsWeights (A : Adapter) (γ : ℝ) (sizes offsets : List ℕ)
    (θ : List ℝ) (xs ys : List (List ℝ)) (h : ℕ) : ℕ → ℝ :=
  let w := (ys.headD []).length
  let mto := softmaxInPlace γ sizes offsets (A.run (xs.getD h []) θ)
  fun i => if i < w then (mto i - (ys.getD h []).getD i 0) * γ else 0

/-- The body of `_cost_func_grad`'s per-sample loop (lines 252-266),
acting on the pair (accumulated gradient, adapter parameter state):
build the sample's weighted observable, add the adapter's backprop
gradient, and carry whatever parameter state the backprop call leaves. -/
noncomputable def gradStep (A : Adapter) (γ : ℝ) (sizes offsets : List ℕ)
    (θ : List ℝ) (xs ys : List (List ℝ))
    (st : (ℕ → ℝ) × List ℝ) (h : ℕ) : (ℕ → ℝ) × List ℝ :=
  let wts := gradObsWeights A γ sizes offsets θ xs ys h
  (fun i => st.1 i + A.bpGrad st.2 (xs.getD h []) wts i,
   A.bpParams st.2 (xs.getD h []) wts)

/-- `_cost_func_grad` (lines 247-270): set the circuit parameters to `θ`,
run `_predict_inner` on every sample at `θ`, then for each sample
overwrite its prediction row with the grouped softmax, build the
weighted observable, and accumulate the adapter's backprop gradient,
threading the adapter's parameter state through the backprop calls;
finally re-apply `update_parameters(θ)` and divide by the sample count.
Returns (gradient, circuit parameters after the call). -/
noncomputable def cost_func_grad (A : Adapter) (γ : ℝ) (sizes offsets : List ℕ)
    (θ : List ℝ) (xs ys : List (List ℝ)) : (ℕ → ℝ) × List ℝ :=
  let res := (List.range xs.length).foldl
    (gradStep A γ sizes offsets θ xs ys) ((fun _ => 0), θ)
  (fun i => res.1 i / (xs.length : ℝ), θ)

/-- The circuit parameters held by the adapter just before the `h`-th
backprop call of `_cost_func_grad`: `θ` initially (set by
`update_parameters(theta)` at line 248), then whatever each backprop
call leaves behind. -/
noncomputable def bpParamSeq (A : Adapter) (γ : ℝ) (sizes offsets : List ℕ)
    (θ : List ℝ) (xs ys : List (List ℝ)) : ℕ → List ℝ
  | 0 => θ
  | h + 1 => A.bpParams (bpParamSeq A γ sizes offsets θ xs ys h) (xs.getD h [])
      (gradObsWeights A γ sizes offsets θ xs ys h)

/-- `cost_func` (lines 195-218) as seen by the circuit: on the `log_loss`
branch it sets the parameters to `θ`, runs the circuit once per sample
(no parameter mutation), and returns the cost together with the
parameters after the call; any other cost kind raises
`NotImplementedError` (`none`). -/
noncomputable def cost_func_run (A : Adapter) (cost : String) (γ : ℝ)
    (sizes offsets : List ℕ) (θ : List ℝ) (xs ys : List (List ℝ)) :
    Option (ℝ × List ℝ) :=
  if cost = "log_loss" then
    some (cost_func γ sizes offsets (xs.map fun x => A.run x θ) ys, θ)
  else
    none

/-- Adam hyperparameter `pr_A` (learning rate, line 131). -/
noncomputable def pr_A : ℝ := 0.02

/-- Adam hyperparameter `pr_Bi` (first-moment decay, line 132). -/
noncomputable def pr_Bi : ℝ := 0.8

/-- Adam hyperparameter `pr_Bt` (second-moment decay, line 133). -/
noncomputable def pr_Bt : ℝ := 0.995

/-- Adam hyperparameter `pr_ips` (numerical floor, line 134). -/
noncomputable def pr_ips : ℝ := 0.0000001

/-- The mutable state of the custom Adam-style loop (lines 136-153):
the two scalar bias-correction accumulators `Bix`, `Btx`, the moment
vector, the scalar velocity, and the parameter vector `theta_now`. -/
structure AdamState where
  Bix : ℝ
  Btx : ℝ
  moment : ℕ → ℝ
  vel : ℝ
  theta : ℕ → ℝ

/-- One iteration of the Adam loop body (lines 144-153), given the
gradient `grad` computed for this step and the parameter dimension `d`
(`len(theta_init)`, over which `np.dot(grad, grad)` sums). -/
noncomputable def adamStep (d : ℕ) (grad : ℕ → ℝ) (st : AdamState) : AdamState :=
  let moment := fun i => st.moment i * pr_Bi + (1 - pr_Bi) * grad i
  let vel := st.vel * pr_Bt + (1 - pr_Bt) * ∑ i ∈ Finset.range d, grad i * grad i
  let Bix := st.Bix * pr_Bi + (1 - pr_Bi)
  let Btx := st.Btx * pr_Bt + (1 - pr_Bt)
  { Bix := Bix, Btx := Btx, moment := moment, vel := vel,
    theta := fun i =>
      st.theta i - pr_A / (Real.sqrt (vel / Btx) + pr_ips) * (moment i / Bix) }

/-- The Adam loop (lines 143-155): fold the step body over the list of
step indices, where `gradf θ iter` abstracts the call
`self._cost_func_grad(theta_now, x_scaled[iter%N : iter%N+5], ...)`. -/
noncomputable def adamDrive (d : ℕ) (gradf : (ℕ → ℝ) → ℕ → (ℕ → ℝ))
    (iters : List ℕ) (st : AdamState) : AdamState :=
  iters.foldl (fun s iter => adamStep d (gradf s.theta iter) s) st

/-- Python's `range(0, stop, 5)` (line 143): the multiples of 5 below
`stop`, in increasing order. -/
def rangeStepFive (stop : ℕ) : List ℕ :=
  (List.range ((stop + 4) / 5)).map fun t => t * 5

/-- The list of Adam step indices (lines 142-143): `maxiter` is first
multiplied by the training-set size `n`, then the loop advances in
increments of 5. -/
def adamIters (maxiter n : ℕ) : List ℕ := rangeStepFive (maxiter * n)

/-- Python's slice `l[a : b]` for `0 ≤ a ≤ b`: drop `a`, take `b - a`,
clamped at the end of the list (no wrap-around). -/
def pySlice (l : List α) (a b : ℕ) : List α := (l.drop a).take (b - a)

/-- The mini-batch used at Adam step `iter` (lines 146-147):
`x_scaled[iter % len(x_train) : iter % len(x_train) + 5]`. -/
def adamBatch (l : List α) (iter : ℕ) : List α :=
  pySlice l (iter % l.length) (iter % l.length + 5)

/-- Externally visible work performed during `fit`: a circuit execution
(`circuit.run`, inside `_predict_inner`), a backprop call
(`circuit.backprop`), or the `NotImplementedError` raised by `cost_func`
on an unsupported cost kind. -/
inductive Event where
  | circuitRun : Event
  | backprop : Event
  | raiseNotImplemented : Event
deriving DecidableEq, Repr

/-- Trace of `_predict_inner` (lines 183-192): one circuit run per sample. -/
def predictTrace (n : ℕ) : List Event := List.replicate n Event.circuitRun

/-- Trace of `cost_func` (lines 195-218) on `n` samples: on the
`log_loss` branch, the circuit runs of `_predict_inner`; on any other
cost kind, `NotImplementedError` is raised before any circuit work. -/
def cost_funcTrace (cost : String) (n : ℕ) : List Event :=
  if cost = "log_loss" then predictTrace n else [Event.raiseNotImplemented]

/-- Trace of `_cost_func_grad` (lines 247-270) on `n` samples: it never
inspects the cost kind — `_predict_inner`'s runs, then one backprop
call per sample. -/
def cost_func_gradTrace (n : ℕ) : List Event :=
  predictTrace n ++ List.replicate n Event.backprop

/-- Trace of `fit` with `solver="Adam"` (lines 130-158): one
`_cost_func_grad` call per step index on that step's mini-batch, then
the final `cost_func` call (line 157) on the full training set. -/
def fitAdamTrace (cost : String) (maxiter : ℕ) (xs : List (List ℝ)) : List Event :=
  ((adamIters maxiter xs.length).map
      (fun iter => cost_func_gradTrace (adamBatch xs iter).length)).flatten
    ++ cost_funcTrace cost xs.length

/-! ### Helper lemmas -/

lemma mem_rangeStepFive {iter stop : ℕ} :
    iter ∈ rangeStepFive stop ↔ 5 ∣ iter ∧ iter < stop := by
  simp only [rangeStepFive, List.mem_map, List.mem_range]
  constructor
  · rintro ⟨t, ht, rfl⟩
    refine ⟨⟨t, by ring⟩, ?_⟩
    have h5 : (t + 1) * 5 ≤ stop + 4 := (Nat.le_div_iff_mul_le (by norm_num)).1 ht
    omega
  · rintro ⟨⟨t, rfl⟩, hlt⟩
    refine ⟨t, (Nat.le_div_iff_mul_le (by norm_num)).2 (by omega), by ring⟩

lemma adamBatch_length {α : Type _} (l : List α) (iter : ℕ) :
    (adamBatch l iter).length = min 5 (l.length - iter % l.length) := by
  simp only [adamBatch, pySlice, List.length_take, List.length_drop]
  omega

lemma adamBatch_getD {α : Type _} (l : List α) (d : α) (iter j : ℕ)
    (hj : j < (adamBatch l iter).length) :
    (adamBatch l iter).getD j d = l.getD (iter % l.length + j) d := by
  simp only [adamBatch, pySlice, List.getD_eq_getElem?_getD, List.length_take,
    List.length_drop] at hj ⊢
  rw [List.getElem?_take, if_pos (by omega), List.getElem?_drop]

/-! ### C5: Adam step budget and mini-batch windows -/

/-- C5 (corrected claim is false as stated): with a training set of 3
samples, the very first Adam step (step index 0, which is a genuine
step of the budget for `maxiter = 1`) receives a batch of only 3
samples — the slice `x[0:5]` is clamped at the end of the list, it does
not wrap around to give 5 samples. -/
theorem C5_counterexample :
    0 ∈ adamIters 1 3 ∧ (adamBatch ([0, 1, 2] : List ℕ) 0).length ≠ 5 := by
  decide

/-- C5 (amended): the step indices are exactly the multiples of 5 below
`maxiter * n`, and the batch of step `iter` is the window of
`min 5 (n - iter % n)` consecutive samples starting at index
`iter % n` — truncated at the end of the training set, not wrapped. -/
theorem C5_amended_theorem (l : List (List ℝ)) (hN : 0 < l.length)
    (maxiter iter : ℕ) :
    (iter ∈ adamIters maxiter l.length ↔ 5 ∣ iter ∧ iter < maxiter * l.length)
    ∧ (adamBatch l iter).length = min 5 (l.length - iter % l.length)
    ∧ ∀ j, j < (adamBatch l iter).length →
        (adamBatch l iter).getD j [] = l.getD (iter % l.length + j) [] :=
  ⟨mem_rangeStepFive, adamBatch_length l iter, fun j hj => adamBatch_getD l [] iter j hj⟩

/-- Witness for C5: the amended statement applied to the concrete
one-sample training set `[[0]]`, `maxiter = 1`, step index 0. -/
theorem C5_amended_witness :
    0 < ([[(0 : ℝ)]] : List (List ℝ)).length
    ∧ ((0 ∈ adamIters 1 ([[(0 : ℝ)]] : List (List ℝ)).length ↔
          5 ∣ 0 ∧ 0 < 1 * ([[(0 : ℝ)]] : List (List ℝ)).length)
      ∧ (adamBatch ([[(0 : ℝ)]] : List (List ℝ)) 0).length =
          min 5 (([[(0 : ℝ)]] : List (List ℝ)).length - 0 % ([[(0 : ℝ)]] : List (List ℝ)).length)
      ∧ ∀ j, j < (adamBatch ([[(0 : ℝ)]] : List (List ℝ)) 0).length →
          (adamBatch ([[(0 : ℝ)]] : List (List ℝ)) 0).getD j [] =
            ([[(0 : ℝ)]] : List (List ℝ)).getD (0 % ([[(0 : ℝ)]] : List (List ℝ)).length + j) []) :=
  ⟨Nat.one_pos, C5_amended_theorem [[(0 : ℝ)]] Nat.one_pos 1 0⟩

/-! ### C6: unsupported cost kinds do not fail before training work -/

/-- C6 (corrected claim is false as stated): with `solver="Adam"`, an
unsupported cost kind `"bogus"`, one training sample and `maxiter = 1`,
`fit` performs a circuit run and a backprop call before the
`NotImplementedError` is finally raised: the configuration error does
not precede the training work. -/
theorem C6_counterexample :
    fitAdamTrace "bogus" 1 [[(0 : ℝ)]] =
      [Event.circuitRun, Event.backprop, Event.raiseNotImplemented]
    ∧ (fitAdamTrace "bogus" 1 [[(0 : ℝ)]]).head? ≠ some Event.raiseNotImplemented := by
  constructor
  · simp [fitAdamTrace, adamIters, rangeStepFive, adamBatch, pySlice,
      cost_func_gradTrace, cost_funcTrace, predictTrace, List.range_succ, List.replicate]
  · simp [fitAdamTrace, adamIters, rangeStepFive, adamBatch, pySlice,
      cost_func_gradTrace, cost_funcTrace, predictTrace, List.range_succ, List.replicate]

/-- C6 (amended): `cost_func` itself raises the configuration error
before any of its own circuit work, for every solver that reaches it;
but under `solver="Adam"` the error surfaces only at the very end of
`fit` — the whole step budget of gradient evaluations (circuit runs and
backprop calls) happens first, and the raise is the last event of the
trace. -/
theorem C6_amended_theorem (cost : String) (hc : cost ≠ "log_loss")
    (maxiter : ℕ) (xs : List (List ℝ)) (n : ℕ) :
    cost_funcTrace cost n = [Event.raiseNotImplemented]
    ∧ ∃ pre, fitAdamTrace cost maxiter xs = pre ++ [Event.raiseNotImplemented]
        ∧ Event.raiseNotImplemented ∉ pre := by
  refine ⟨by simp [cost_funcTrace, hc], ?_⟩
  refine ⟨((adamIters maxiter xs.length).map
      (fun iter => cost_func_gradTrace (adamBatch xs iter).length)).flatten, ?_, ?_⟩
  · simp [fitAdamTrace, cost_funcTrace, hc]
  · intro hmem
    rcases List.mem_flatten.1 hmem with ⟨l, hl, hev⟩
    rcases List.mem_map.1 hl with ⟨iter, _, rfl⟩
    rcases List.mem_append.1 hev with h1 | h1
    · rcases (List.mem_replicate.1 h1) with ⟨_, h⟩
      exact Event.noConfusion h
    · rcases (List.mem_replicate.1 h1) with ⟨_, h⟩
      exact Event.noConfusion h

/-- Witness for C6: the amended statement applied to the unsupported
cost kind `"bogus"` with an empty training set and `maxiter = 0`. -/
theorem C6_amended_witness :
    ("bogus" : String) ≠ "log_loss"
    ∧ cost_funcTrace "bogus" 0 = [Event.raiseNotImplemented] :=
  ⟨by decide, ( C6_amended_theorem "bogus" (by decide) 0 [] 0).1⟩

/-! ### C4: the Adam step -/

/-- C4 (confirmed): each step of the custom Adam-style driver uses
exactly `α = 0.02`, `β1 = 0.8`, `β2 = 0.995`, `ε = 1e-7`; the driver
advances by applying the step body to the current state; the step sets
`moment = β1·moment + (1−β1)·grad`, the scalar
`velocity = β2·velocity + (1−β2)·⟨grad, grad⟩`, updates both scalar
bias-correction accumulators, and moves every parameter dimension by the
same single adaptive scalar step size
`η = α / (√(velocity/biasCorr2) + ε)` times `moment/biasCorr1`. -/
theorem C4_theorem (d : ℕ) (gradf : (ℕ → ℝ) → ℕ → (ℕ → ℝ)) (iter : ℕ)
    (rest : List ℕ) (st : AdamState) :
    pr_A = 0.02 ∧ pr_Bi = 0.8 ∧ pr_Bt = 0.995 ∧ pr_ips = 1 / 10 ^ 7
    ∧ adamDrive d gradf (iter :: rest) st
        = adamDrive d gradf rest (adamStep d (gradf st.theta iter) st)
    ∧ (adamStep d (gradf st.theta iter) st).moment
        = (fun i => pr_Bi * st.moment i + (1 - pr_Bi) * gradf st.theta iter i)
    ∧ (adamStep d (gradf st.theta iter) st).vel
        = pr_Bt * st.vel
          + (1 - pr_Bt) * ∑ i ∈ Finset.range d, gradf st.theta iter i * gradf st.theta iter i
    ∧ (adamStep d (gradf st.theta iter) st).Bix = pr_Bi * st.Bix + (1 - pr_Bi)
    ∧ (adamStep d (gradf st.theta iter) st).Btx = pr_Bt * st.Btx + (1 - pr_Bt)
    ∧ ∃ η : ℝ,
        η = pr_A / (Real.sqrt ((adamStep d (gradf st.theta iter) st).vel
              / (adamStep d (gradf st.theta iter) st).Btx) + pr_ips)
        ∧ (adamStep d (gradf st.theta iter) st).theta
            = fun i => st.theta i
                - η * ((adamStep d (gradf st.theta iter) st).moment i
                        / (adamStep d (gradf st.theta iter) st).Bix) := by
  refine ⟨rfl, rfl, rfl, by norm_num [pr_ips], rfl, ?_, ?_, ?_, ?_, ?_⟩
  · funext i; simp only [adamStep]; ring
  · simp only [adamStep]; ring
  · simp only [adamStep]; ring
  · simp only [adamStep]; ring
  · exact ⟨_, rfl, rfl⟩

/-! ### C10: cost and gradient evaluation leave the parameters at θ -/

/-- C10 (confirmed): whatever parameter mutations the adapter's backprop
performs, `_cost_func_grad` re-applies `update_parameters(theta)` after
its per-sample backprop calls, so the circuit parameters after the call
equal the `theta` argument; and when `cost_func` returns (the
`log_loss` branch), the parameters also equal `theta`, since its only
circuit interactions after `update_parameters(theta)` are runs. -/
theorem C10_theorem (A : Adapter) (cost : String) (γ : ℝ)
    (sizes offsets : List ℕ) (θ : List ℝ) (xs ys : List (List ℝ)) :
    (cost_func_grad A γ sizes offsets θ xs ys).2 = θ
    ∧ ∀ c p, cost_func_run A cost γ sizes offsets θ xs ys = some (c, p) → p = θ := by
  refine ⟨rfl, ?_⟩
  intro c p h
  by_cases hc : cost = "log_loss"
  · simp only [cost_func_run, if_pos hc, Option.some.injEq, Prod.mk.injEq] at h
    exact h.2.symm
  · simp [cost_func_run, hc] at h

/-- An adapter whose backprop visibly mutates the parameter vector
(prepends a junk entry), used to exercise the frame property. -/
noncomputable def A0 : Adapter :=
  ⟨fun _ _ _ => 0, fun _ _ _ _ => 0, fun p _ _ => 0 :: p⟩

/-- Witness for C10: at the concrete adapter `A0`, `cost_func_run` on
the `log_loss` branch returns parameters `[1]`, equal to the `theta`
argument `[1]`. -/
theorem C10_witness :
    cost_func_run A0 "log_loss" 1 [1] [0, 1] [(1 : ℝ)] [[(0 : ℝ)]] [[(1 : ℝ)]]
      = some (cost_func 1 [1] [0, 1] ([[(0 : ℝ)]].map fun x => A0.run x [(1 : ℝ)]) [[(1 : ℝ)]],
          [(1 : ℝ)])
    ∧ ([(1 : ℝ)] : List ℝ) = [(1 : ℝ)] :=
  ⟨by simp [cost_func_run],
   (C10_theorem A0 "log_loss" 1 [1] [0, 1] [(1 : ℝ)] [[(0 : ℝ)]] [[(1 : ℝ)]]).2
     (cost_func 1 [1] [0, 1] ([[(0 : ℝ)]].map fun x => A0.run x [(1 : ℝ)]) [[(1 : ℝ)]])
     [(1 : ℝ)] (by simp [cost_func_run])⟩

/-! ### C9: the decoder's per-group argmax -/

lemma argmaxLoop_zero (hid : ℕ) (y : ℕ → ℝ) :
    argmaxLoop 0 hid y = (-99998888, 0) := rfl

lemma argmaxLoop_succ (s hid : ℕ) (y : ℕ → ℝ) :
    argmaxLoop (s + 1) hid y =
      (if (argmaxLoop s hid y).1 < y (hid + s) then (y (hid + s), s)
       else argmaxLoop s hid y) := by
  simp only [argmaxLoop, List.range_succ, List.foldl_append, List.foldl_cons, List.foldl_nil]

lemma argmaxLoop_invariant (y : ℕ → ℝ) (hid : ℕ) :
    ∀ s, 0 < s → (∀ k, k < s → 0 ≤ y (hid + k)) →
      (argmaxLoop s hid y).2 < s
      ∧ (argmaxLoop s hid y).1 = y (hid + (argmaxLoop s hid y).2)
      ∧ (∀ k, k < s → y (hid + k) ≤ (argmaxLoop s hid y).1)
      ∧ (∀ k, k < (argmaxLoop s hid y).2 → y (hid + k) < (argmaxLoop s hid y).1) := by
  intro s
  induction s with
  | zero => omega
  | succ s ih =>
    intro _ hnn
    rcases Nat.eq_zero_or_pos s with hz | hpos
    · subst hz
      have h0 : (0 : ℝ) ≤ y (hid + 0) := hnn 0 Nat.one_pos
      rw [argmaxLoop_succ, argmaxLoop_zero,
        if_pos (show ((-99998888 : ℝ), 0).1 < y (hid + 0) from
          lt_of_lt_of_le (by norm_num) h0)]
      refine ⟨Nat.one_pos, rfl, ?_, ?_⟩
      · intro k hk
        interval_cases k
        exact le_refl _
      · intro k hk
        omega
    · obtain ⟨ih1, ih2, ih3, ih4⟩ :=
        ih hpos (fun k hk => hnn k (Nat.lt_succ_of_lt hk))
      rw [argmaxLoop_succ]
      by_cases hlt : (argmaxLoop s hid y).1 < y (hid + s)
      · rw [if_pos hlt]
        refine ⟨Nat.lt_succ_self s, rfl, ?_, ?_⟩
        · intro k hk
          rcases Nat.lt_succ_iff_lt_or_eq.1 hk with h | rfl
          · exact le_of_lt (lt_of_le_of_lt (ih3 k h) hlt)
          · exact le_refl _
        · intro k hk
          exact lt_of_le_of_lt (ih3 k hk) hlt
      · rw [if_neg hlt]
        refine ⟨Nat.lt_succ_of_lt ih1, ih2, ?_, ih4⟩
        intro k hk
        rcases Nat.lt_succ_iff_lt_or_eq.1 hk with h | rfl
        · exact ih3 k h
        · exact not_lt.1 hlt

/-- C9 (confirmed): for a valid (non-negative) probability vector and a
non-empty group `j`, the decoder's entry for group `j` is an index in
`[0, groupSizes[j])` at which the group attains its maximum, and every
strictly earlier index in the group holds a strictly smaller value
(ties are broken by first occurrence). -/
theorem C9_theorem (sizes offsets : List ℕ) (y : ℕ → ℝ) (j : ℕ)
    (hj : j < sizes.length) (hs : 0 < sizes.getD j 0)
    (hnn : ∀ k, k < sizes.getD j 0 → 0 ≤ y (offsets.getD j 0 + k)) :
    (rev_y_scale_row sizes offsets y).getD j 0 < sizes.getD j 0
    ∧ (∀ k, k < sizes.getD j 0 →
        y (offsets.getD j 0 + k)
          ≤ y (offsets.getD j 0 + (rev_y_scale_row sizes offsets y).getD j 0))
    ∧ (∀ k, k < (rev_y_scale_row sizes offsets y).getD j 0 →
        y (offsets.getD j 0 + k)
          < y (offsets.getD j 0 + (rev_y_scale_row sizes offsets y).getD j 0)) := by
  have hrow : (rev_y_scale_row sizes offsets y).getD j 0
      = (argmaxLoop (sizes.getD j 0) (offsets.getD j 0) y).2 := by
    have hlen : j < (rev_y_scale_row sizes offsets y).length := by
      simpa [rev_y_scale_row] using hj
    rw [List.getD_eq_getElem _ _ hlen]
    simp [rev_y_scale_row]
  obtain ⟨h1, h2, h3, h4⟩ :=
    argmaxLoop_invariant y (offsets.getD j 0) (sizes.getD j 0) hs hnn
  rw [hrow]
  exact ⟨h1, fun k hk => h2 ▸ h3 k hk, fun k hk => h2 ▸ h4 k hk⟩

/-- Witness for C9: the all-zero probability vector over a single group
of size 2 — the decoder picks index 0 (the first of the tied maxima),
which lies in `[0, 2)`. -/
theorem C9_witness :
    (0 < ([2] : List ℕ).length)
    ∧ 0 < ([2] : List ℕ).getD 0 0
    ∧ ((rev_y_scale_row [2] [0, 2] (fun _ => (0 : ℝ))).getD 0 0 < ([2] : List ℕ).getD 0 0
       ∧ (∀ k, k < ([2] : List ℕ).getD 0 0 →
           (fun _ => (0 : ℝ)) (([0, 2] : List ℕ).getD 0 0 + k)
             ≤ (fun _ => (0 : ℝ)) (([0, 2] : List ℕ).getD 0 0
                 + (rev_y_scale_row [2] [0, 2] (fun _ => (0 : ℝ))).getD 0 0))
       ∧ (∀ k, k < (rev_y_scale_row [2] [0, 2] (fun _ => (0 : ℝ))).getD 0 0 →
           (fun _ => (0 : ℝ)) (([0, 2] : List ℕ).getD 0 0 + k)
             < (fun _ => (0 : ℝ)) (([0, 2] : List ℕ).getD 0 0
                 + (rev_y_scale_row [2] [0, 2] (fun _ => (0 : ℝ))).getD 0 0))) :=
  ⟨Nat.one_pos, by decide,
   C9_theorem [2] [0, 2] (fun _ => (0 : ℝ)) 0 (by decide) (by decide)
     (fun k _ => le_refl 0)⟩

/-! ### Grouped-softmax structure lemmas -/

lemma sum_map_range (g : ℕ → ℝ) : ∀ s, ((List.range s).map g).sum = ∑ k ∈ Finset.range s, g k := by
  intro s
  induction s with
  | zero => simp
  | succ s ih =>
    rw [List.range_succ, List.map_append, List.sum_append, Finset.sum_range_succ, ih]
    simp

lemma foldl_append_eq_flatten {α β : Type _} (f : β → List α) (js : List β) (acc : List α) :
    js.foldl (fun a j => a ++ f j) acc = acc ++ (js.map f).flatten := by
  induction js generalizing acc with
  | nil => simp
  | cons j js ih => simp [ih, List.append_assoc]

lemma ypfSample_eq_flatten (γ : ℝ) (sizes offsets : List ℕ) (r : ℕ → ℝ) :
    ypfSample γ sizes offsets r =
      ((List.range sizes.length).map fun j =>
        softmaxGroup γ (sizes.getD j 0) (offsets.getD j 0) r).flatten := by
  rw [ypfSample, foldl_append_eq_flatten]
  simp

lemma softmaxGroup_length (γ : ℝ) (s hid : ℕ) (r : ℕ → ℝ) :
    (softmaxGroup γ s hid r).length = s := by
  simp [softmaxGroup]

lemma exp_sum_pos (γ : ℝ) (s hid : ℕ) (hs : 0 < s) (r : ℕ → ℝ) :
    0 < ∑ kk ∈ Finset.range s, Real.exp (γ * r (hid + kk)) :=
  Finset.sum_pos (fun k _ => Real.exp_pos _) (Finset.nonempty_range_iff.2 (by omega))

lemma softmaxGroup_getD (γ : ℝ) (s hid : ℕ) (r : ℕ → ℝ) (k : ℕ) (hk : k < s) :
    (softmaxGroup γ s hid r).getD k 0
      = Real.exp (γ * r (hid + k)) / ∑ kk ∈ Finset.range s, Real.exp (γ * r (hid + kk)) := by
  have hlen : k < (softmaxGroup γ s hid r).length := by rw [softmaxGroup_length]; exact hk
  rw [List.getD_eq_getElem _ _ hlen]
  simp [softmaxGroup]

lemma softmaxGroup_sum (γ : ℝ) (s hid : ℕ) (hs : 0 < s) (r : ℕ → ℝ) :
    (softmaxGroup γ s hid r).sum = 1 := by
  rw [softmaxGroup, sum_map_range, ← Finset.sum_div]
  exact div_self (ne_of_gt (exp_sum_pos γ s hid hs r))

lemma scanl_add_getD (l : List ℕ) : ∀ (b j : ℕ), j ≤ l.length →
    (List.scanl (fun a c => a + c) b l).getD j 0 = b + ∑ i ∈ Finset.range j, l.getD i 0 := by
  induction l with
  | nil =>
    intro b j hj
    have hj0 : j = 0 := by simpa using hj
    subst hj0
    simp [List.scanl_nil]
  | cons c cs ih =>
    intro b j hj
    cases j with
    | zero => simp [List.scanl_cons]
    | succ j =>
      rw [List.scanl_cons, List.singleton_append, List.getD_cons_succ,
        ih (b + c) j (by simpa using hj), Finset.sum_range_succ']
      simp only [List.getD_cons_succ, List.getD_cons_zero]
      omega

/-- The offsets produced by `get_y_scale_param` are the partial sums of
the group sizes. -/
lemma get_y_scale_param_offsets (cats : List ℕ) (j : ℕ) (hj : j ≤ cats.length) :
    (get_y_scale_param cats).2.getD j 0 = ∑ i ∈ Finset.range j, cats.getD i 0 := by
  rw [get_y_scale_param, scanl_add_getD cats 0 j hj, Nat.zero_add]

lemma flatten_getD_block (blocks : List (List ℝ)) :
    ∀ (j k : ℕ), j < blocks.length → k < (blocks.getD j []).length →
    blocks.flatten.getD ((∑ i ∈ Finset.range j, (blocks.getD i []).length) + k) 0
      = (blocks.getD j []).getD k 0 := by
  induction blocks with
  | nil => intro j k hj; simp at hj
  | cons b bs ih =>
    intro j k hj hk
    cases j with
    | zero =>
      simp only [List.getD_cons_zero] at hk ⊢
      simp only [Finset.range_zero, Finset.sum_empty, Nat.zero_add, List.flatten_cons]
      rw [List.getD_append _ _ _ _ hk]
    | succ j =>
      simp only [List.getD_cons_succ] at hk ⊢
      rw [Finset.sum_range_succ']
      simp only [List.getD_cons_succ, List.getD_cons_zero, List.flatten_cons]
      rw [show (∑ i ∈ Finset.range j, (bs.getD i []).length) + b.length + k
            = b.length + ((∑ i ∈ Finset.range j, (bs.getD i []).length) + k) by omega,
        List.getD_append_right _ _ _ _ (by omega)]
      rw [show b.length + ((∑ i ∈ Finset.range j, (bs.getD i []).length) + k) - b.length
            = (∑ i ∈ Finset.range j, (bs.getD i []).length) + k by omega]
      exact ih j k (by simpa using hj) hk

/-- The entry of one sample's `ypf` block at flattened position
`offsets[j] + k` is group `j`'s softmax value `p_k`, when the offsets
are the ones `get_y_scale_param` builds. -/
lemma ypfSample_getD (γ : ℝ) (sizes : List ℕ) (r : ℕ → ℝ) (j k : ℕ)
    (hj : j < sizes.length) (hk : k < sizes.getD j 0) :
    (ypfSample γ sizes (get_y_scale_param sizes).2 r).getD
        ((get_y_scale_param sizes).2.getD j 0 + k) 0
      = (softmaxGroup γ (sizes.getD j 0) ((get_y_scale_param sizes).2.getD j 0) r).getD k 0 := by
  rw [ypfSample_eq_flatten]
  set blocks := (List.range sizes.length).map fun j2 =>
      softmaxGroup γ (sizes.getD j2 0) ((get_y_scale_param sizes).2.getD j2 0) r with hbdef
  have hmapD : ∀ i, i < sizes.length →
      blocks.getD i []
        = softmaxGroup γ (sizes.getD i 0) ((get_y_scale_param sizes).2.getD i 0) r := by
    intro i hi
    have hlen : i < blocks.length := by simp [hbdef, hi]
    rw [List.getD_eq_getElem _ _ hlen]
    simp [hbdef]
  have hsum : (∑ i ∈ Finset.range j, (blocks.getD i []).length)
      = (get_y_scale_param sizes).2.getD j 0 := by
    rw [get_y_scale_param_offsets sizes j (le_of_lt hj)]
    refine Finset.sum_congr rfl fun i hi => ?_
    rw [hmapD i (lt_of_lt_of_le (Finset.mem_range.1 hi) (le_of_lt hj)), softmaxGroup_length]
  have hk2 : k < (blocks.getD j []).length := by
    rw [hmapD j hj, softmaxGroup_length]
    exact hk
  calc blocks.flatten.getD ((get_y_scale_param sizes).2.getD j 0 + k) 0
      = blocks.flatten.getD ((∑ i ∈ Finset.range j, (blocks.getD i []).length) + k) 0 := by
        rw [hsum]
    _ = (blocks.getD j []).getD k 0 :=
        flatten_getD_block blocks j k (by simp [hbdef, hj]) hk2
    _ = _ := by rw [hmapD j hj]

/-! ### C8: per-group softmax, summing to 1 -/

/-- C8 (confirmed): with the offsets built by `get_y_scale_param`, the
predicted probabilities of a sample form an independent softmax per
group over disjoint index ranges: the entry at flattened position
`offsets[j] + k` is `exp(γ·r[h+k]) / Σ_{k'} exp(γ·r[h+k'])` with the sum
ranging over group `j`'s own entries only, and each non-empty group's
probabilities sum to exactly 1. -/
theorem C8_theorem (γ : ℝ) (sizes : List ℕ) (r : ℕ → ℝ) (j : ℕ)
    (hj : j < sizes.length) (hs : 0 < sizes.getD j 0) :
    (∀ k, k < sizes.getD j 0 →
        (ypfSample γ sizes (get_y_scale_param sizes).2 r).getD
            ((get_y_scale_param sizes).2.getD j 0 + k) 0
          = Real.exp (γ * r ((get_y_scale_param sizes).2.getD j 0 + k))
            / ∑ kk ∈ Finset.range (sizes.getD j 0),
                Real.exp (γ * r ((get_y_scale_param sizes).2.getD j 0 + kk)))
    ∧ (∑ k ∈ Finset.range (sizes.getD j 0),
        (ypfSample γ sizes (get_y_scale_param sizes).2 r).getD
            ((get_y_scale_param sizes).2.getD j 0 + k) 0) = 1 := by
  have hform : ∀ k, k < sizes.getD j 0 →
      (ypfSample γ sizes (get_y_scale_param sizes).2 r).getD
          ((get_y_scale_param sizes).2.getD j 0 + k) 0
        = Real.exp (γ * r ((get_y_scale_param sizes).2.getD j 0 + k))
          / ∑ kk ∈ Finset.range (sizes.getD j 0),
              Real.exp (γ * r ((get_y_scale_param sizes).2.getD j 0 + kk)) := by
    intro k hk
    rw [ypfSample_getD γ sizes r j k hj hk, softmaxGroup_getD _ _ _ _ _ hk]
  refine ⟨hform, ?_⟩
  rw [Finset.sum_congr rfl fun k hk => hform k (Finset.mem_range.1 hk), ← Finset.sum_div]
  exact div_self (ne_of_gt (exp_sum_pos γ _ _ hs r))

/-- Witness for C8: one group of size 2, `γ = 1`, the all-zero raw
output vector. -/
theorem C8_witness :
    0 < ([2] : List ℕ).length ∧ 0 < ([2] : List ℕ).getD 0 0
    ∧ ((∀ k, k < ([2] : List ℕ).getD 0 0 →
          (ypfSample 1 [2] (get_y_scale_param [2]).2 fun _ => (0 : ℝ)).getD
              ((get_y_scale_param [2]).2.getD 0 0 + k) 0
            = Real.exp (1 * (0 : ℝ))
              / ∑ kk ∈ Finset.range (([2] : List ℕ).getD 0 0), Real.exp (1 * (0 : ℝ)))
      ∧ (∑ k ∈ Finset.range (([2] : List ℕ).getD 0 0),
          (ypfSample 1 [2] (get_y_scale_param [2]).2 fun _ => (0 : ℝ)).getD
              ((get_y_scale_param [2]).2.getD 0 0 + k) 0) = 1) :=
  ⟨Nat.one_pos, by decide,
   C8_theorem 1 [2] (fun _ => (0 : ℝ)) 0 (by decide) (by decide)⟩

/-! ### C7: no probability floor before the logarithm -/

lemma ypf_pair_head (r : ℕ → ℝ) :
    (ypfSample 1 [2] [0, 2] r).getD 0 0
      = Real.exp (r 0) / (Real.exp (r 0) + Real.exp (r 1)) := by
  rw [ypfSample_eq_flatten]
  simp [softmaxGroup, List.range_succ, Finset.sum_range_succ]

/-- C7 (corrected claim is false as stated): the probabilities that
`cost_func` passes to the logarithm are not floored — there is no
positive lower bound `ε` below which they cannot fall.  Already in the
one-sample, one-group-of-two configuration, the first predicted
probability takes values arbitrarily close to 0 as the raw output gap
grows. -/
theorem C7_counterexample :
    ¬ ∃ ε : ℝ, 0 < ε ∧ ∀ t : ℝ,
        ε ≤ (ypfSample 1 [2] [0, 2] fun i => if i = 0 then -t else 0).getD 0 0 := by
  rintro ⟨ε, hε, hall⟩
  have h := hall (-Real.log (ε / 2))
  rw [ypf_pair_head] at h
  norm_num at h
  rw [Real.exp_log (by linarith)] at h
  have hlt : ε / 2 / (ε / 2 + 1) < ε / 2 :=
    div_lt_self (by linarith) (by linarith)
  linarith

/-- C7 (amended): `cost_func` applies `log` directly to the raw
grouped-softmax probabilities, with no floor; in exact real arithmetic
every such probability is strictly positive (a ratio of positive
exponentials), so the logarithm is never applied to an exactly-zero
probability, but no positive floor guards against underflow. -/
theorem C7_amended_theorem (γ : ℝ) (sizes offsets : List ℕ) (r : ℕ → ℝ) (i : ℕ)
    (hi : i < (ypfSample γ sizes offsets r).length) :
    0 < (ypfSample γ sizes offsets r).getD i 0 := by
  have hmem : (ypfSample γ sizes offsets r).getD i 0 ∈ ypfSample γ sizes offsets r := by
    rw [List.getD_eq_getElem _ _ hi]
    exact List.getElem_mem hi
  revert hmem
  generalize (ypfSample γ sizes offsets r).getD i 0 = x
  intro hmem
  rw [ypfSample_eq_flatten] at hmem
  rcases List.mem_flatten.1 hmem with ⟨l, hl, hx⟩
  rcases List.mem_map.1 hl with ⟨j, hjr, rfl⟩
  rcases List.mem_map.1 hx with ⟨k, hkr, hval⟩
  rw [← hval]
  exact div_pos (Real.exp_pos _)
    (exp_sum_pos γ _ _ (by have := List.mem_range.1 hkr; omega) r)

/-- Witness for C7's amended statement: the first probability of the
all-zero two-entry configuration is strictly positive. -/
theorem C7_amended_witness :
    0 < (ypfSample 1 [2] [0, 2] fun _ => (0 : ℝ)).length
    ∧ 0 < (ypfSample 1 [2] [0, 2] fun _ => (0 : ℝ)).getD 0 0 := by
  have hlen : (ypfSample 1 [2] [0, 2] fun _ => (0 : ℝ)).length = 2 := by
    rw [ypfSample_eq_flatten]
    simp [softmaxGroup_length, List.range_succ]
  exact ⟨by rw [hlen]; norm_num,
    C7_amended_theorem 1 [2] [0, 2] (fun _ => (0 : ℝ)) 0 (by rw [hlen]; norm_num)⟩

/-! ### C1: what the cost is divided by -/

lemma sum_getD_range_nat (l : List ℕ) :
    ∑ i ∈ Finset.range l.length, l.getD i 0 = l.sum := by
  induction l with
  | nil => simp
  | cons c cs ih =>
    rw [List.length_cons, Finset.sum_range_succ']
    simp only [List.getD_cons_succ, List.getD_cons_zero, ih, List.sum_cons]
    omega

lemma ypfSample_length (γ : ℝ) (sizes offsets : List ℕ) (r : ℕ → ℝ) :
    (ypfSample γ sizes offsets r).length = sizes.sum := by
  rw [ypfSample_eq_flatten, List.length_flatten, List.map_map]
  have : ∀ j, (List.length ∘ fun j => softmaxGroup γ (sizes.getD j 0) (offsets.getD j 0) r) j
      = sizes.getD j 0 := fun j => softmaxGroup_length γ _ _ r
  calc ((List.range sizes.length).map
          (List.length ∘ fun j => softmaxGroup γ (sizes.getD j 0) (offsets.getD j 0) r)).sum
      = ((List.range sizes.length).map fun j => sizes.getD j 0).sum := by
        exact congrArg List.sum (List.map_congr_left fun j _ => this j)
    _ = ∑ j ∈ Finset.range sizes.length, sizes.getD j 0 := by
        induction sizes.length with
        | zero => simp
        | succ n ih =>
          rw [List.range_succ, List.map_append, List.sum_append, Finset.sum_range_succ, ih]
          simp
    _ = sizes.sum := sum_getD_range_nat sizes

lemma flatten_length_const (ys : List (List ℝ)) (W : ℕ)
    (hrow : ∀ yrow ∈ ys, yrow.length = W) :
    ys.flatten.length = ys.length * W := by
  induction ys with
  | nil => simp
  | cons yrow ys ih =>
    rw [List.flatten_cons, List.length_append, hrow yrow (by simp),
      ih fun r hr => hrow r (by simp [hr]), List.length_cons]
    ring

lemma sum_getD_append (a b c d : List ℝ) (hlen : c.length = a.length) :
    ∑ i ∈ Finset.range ((a ++ b).length),
        (if (a ++ b).getD i 0 = 1 then -Real.log ((c ++ d).getD i 0) else 0)
      = (∑ i ∈ Finset.range a.length,
          if a.getD i 0 = 1 then -Real.log (c.getD i 0) else 0)
        + ∑ i ∈ Finset.range b.length,
            if b.getD i 0 = 1 then -Real.log (d.getD i 0) else 0 := by
  rw [List.length_append, Finset.sum_range_add]
  congr 1
  · refine Finset.sum_congr rfl fun i hi => ?_
    have hia : i < a.length := Finset.mem_range.1 hi
    rw [List.getD_append _ _ _ _ hia, List.getD_append _ _ _ _ (by omega)]
  · refine Finset.sum_congr rfl fun i hi => ?_
    rw [List.getD_append_right _ _ _ _ (by omega),
      List.getD_append_right _ _ _ _ (by omega)]
    have e1 : a.length + i - a.length = i := by omega
    have e2 : a.length + i - c.length = i := by omega
    rw [e1, e2]

lemma cost_num_split (γ : ℝ) (sizes offsets : List ℕ) :
    ∀ (preds : List (ℕ → ℝ)) (ys : List (List ℝ)),
      preds.length = ys.length → (∀ yrow ∈ ys, yrow.length = sizes.sum) →
      (∑ i ∈ Finset.range ys.flatten.length,
        if ys.flatten.getD i 0 = 1
        then -Real.log (((preds.map fun r => ypfSample γ sizes offsets r).flatten).getD i 0)
        else 0)
      = ∑ h ∈ Finset.range ys.length, ∑ i ∈ Finset.range sizes.sum,
          if (ys.getD h []).getD i 0 = 1
          then -Real.log ((ypfSample γ sizes offsets (preds.getD h fun _ => 0)).getD i 0)
          else 0 := by
  intro preds ys
  induction ys generalizing preds with
  | nil =>
    intro hlen _
    simp
  | cons yrow ys ih =>
    intro hlen hrow
    cases preds with
    | nil => simp at hlen
    | cons p preds =>
      simp only [List.map_cons, List.flatten_cons]
      have hsplit := sum_getD_append
        yrow ys.flatten (ypfSample γ sizes offsets p)
        ((preds.map fun r => ypfSample γ sizes offsets r).flatten)
        (by rw [ypfSample_length, hrow yrow (by simp)])
      rw [hsplit, List.length_cons, Finset.sum_range_succ']
      simp only [List.getD_cons_succ, List.getD_cons_zero]
      rw [ih preds (by simpa using hlen) fun r hr => hrow r (by simp [hr])]
      rw [hrow yrow (by simp)]
      ring

/-- C1 (corrected claim is false as stated): on the single-sample batch
with one group of two classes, the all-zero raw output and the one-hot
target `[1, 0]`, the cost the code computes is `log 2 / 2`, while the
claimed mean over samples would be `log 2` — the divisor is the
flattened one-hot length, not the sample count. -/
theorem C1_counterexample :
    cost_func 1 [2] [0, 2] [fun _ => (0 : ℝ)] [[1, 0]]
      ≠ cost_func_claimC1 1 [2] [0, 2] [fun _ => (0 : ℝ)] [[1, 0]] := by
  have hy : (ypfSample 1 [2] [0, 2] fun _ => (0 : ℝ)).getD 0 0 = 1 / 2 := by
    rw [ypf_pair_head]
    norm_num
  have hlog : -Real.log (1 / 2) = Real.log 2 := by
    rw [one_div, Real.log_inv, neg_neg]
  have hc : cost_func 1 [2] [0, 2] [fun _ => (0 : ℝ)] [[1, 0]] = Real.log 2 / 2 := by
    simp only [cost_func]
    simp only [List.map_cons, List.map_nil, List.flatten_cons, List.flatten_nil,
      List.append_nil, List.length_cons, List.length_nil, Finset.sum_range_succ,
      Finset.sum_range_zero, List.getD_cons_zero, List.getD_cons_succ]
    rw [hy]
    norm_num [hlog]
  have hcc : cost_func_claimC1 1 [2] [0, 2] [fun _ => (0 : ℝ)] [[1, 0]] = Real.log 2 := by
    simp only [cost_func_claimC1]
    simp only [List.map_cons, List.map_nil, List.flatten_cons, List.flatten_nil,
      List.append_nil, List.length_cons, List.length_nil, Finset.sum_range_succ,
      Finset.sum_range_zero, List.getD_cons_zero, List.getD_cons_succ]
    rw [hy]
    norm_num [hlog]
  rw [hc, hcc]
  have hpos : 0 < Real.log 2 := Real.log_pos (by norm_num)
  intro h
  linarith

/-- C1 (amended): for a batch whose one-hot rows all have the full width
`sizes.sum`, `cost_func` equals the sum over samples of the per-sample
cross-entropy, divided by `(number of samples) * (one-hot width)` — the
mean over all one-hot positions, not the mean over samples. -/
theorem C1_amended_theorem (γ : ℝ) (sizes offsets : List ℕ)
    (preds : List (ℕ → ℝ)) (ys : List (List ℝ))
    (hlen : preds.length = ys.length)
    (hrow : ∀ yrow ∈ ys, yrow.length = sizes.sum) :
    cost_func γ sizes offsets preds ys
      = (∑ h ∈ Finset.range ys.length, ∑ i ∈ Finset.range sizes.sum,
          if (ys.getD h []).getD i 0 = 1
          then -Real.log ((ypfSample γ sizes offsets (preds.getD h fun _ => 0)).getD i 0)
          else 0)
        / ((ys.length * sizes.sum : ℕ) : ℝ) := by
  simp only [cost_func]
  rw [cost_num_split γ sizes offsets preds ys hlen hrow, flatten_length_const ys sizes.sum hrow]

/-- Witness for C1's amended statement: the concrete batch of the
counterexample, evaluated through the amended formula. -/
theorem C1_amended_witness :
    ([fun _ => (0 : ℝ)] : List (ℕ → ℝ)).length = ([[1, 0]] : List (List ℝ)).length
    ∧ (∀ yrow ∈ ([[1, 0]] : List (List ℝ)), yrow.length = ([2] : List ℕ).sum)
    ∧ cost_func 1 [2] [0, 2] [fun _ => (0 : ℝ)] [[1, 0]]
      = (∑ h ∈ Finset.range ([[1, 0]] : List (List ℝ)).length,
          ∑ i ∈ Finset.range ([2] : List ℕ).sum,
          if (([[1, 0]] : List (List ℝ)).getD h []).getD i 0 = 1
          then -Real.log ((ypfSample 1 [2] [0, 2]
              (([fun _ => (0 : ℝ)] : List (ℕ → ℝ)).getD h fun _ => 0)).getD i 0)
          else 0)
        / ((([[1, 0]] : List (List ℝ)).length * ([2] : List ℕ).sum : ℕ) : ℝ) := by
  refine ⟨rfl, ?_, ?_⟩
  · intro yrow hr
    simp only [List.mem_singleton] at hr
    subst hr
    rfl
  · exact C1_amended_theorem 1 [2] [0, 2] [fun _ => (0 : ℝ)] [[1, 0]] rfl
      (by intro yrow hr; simp only [List.mem_singleton] at hr; subst hr; rfl)

/-! ### C2: the final Adam loss is computed on the raw training data -/

lemma ypf_pair_eq (r : ℕ → ℝ) :
    ypfSample 1 [2] [0, 2] r
      = [Real.exp (r 0) / (Real.exp (r 0) + Real.exp (r 1)),
         Real.exp (r 1) / (Real.exp (r 0) + Real.exp (r 1))] := by
  rw [ypfSample_eq_flatten]
  simp [softmaxGroup, List.range_succ, Finset.sum_range_succ]

/-- C2 (the code evaluated at the failing input): with `do_x_scale`
irrelevant (identical inputs), two samples with labels `0` and `1`
(so `y_scaled = [[1,0],[0,1]]` but the code passes the raw
`y_train = [[0],[1]]` at line 157), and predictions giving grouped
softmax probabilities `(1/2, 1/2)` and `(3/4, 1/4)`:
the value `fit` actually returns is `cost_func(θ, x_train, y_train)
= log 2 / 2`, while the cost on the preprocessed data the optimizer
used is `cost_func(θ, x_scaled, y_scaled) = (log 2 + log 4)/4`; the two
differ, so the claimed identity fails. -/
theorem C2_theorem :
    cost_func 1 [2] [0, 2]
        [fun _ => (0 : ℝ), fun i => if i = 0 then Real.log 3 else 0] [[0], [1]]
      = Real.log 2 / 2
    ∧ cost_func 1 [2] [0, 2]
        [fun _ => (0 : ℝ), fun i => if i = 0 then Real.log 3 else 0] [[1, 0], [0, 1]]
      = (Real.log 2 + Real.log 4) / 4
    ∧ cost_func 1 [2] [0, 2]
        [fun _ => (0 : ℝ), fun i => if i = 0 then Real.log 3 else 0] [[0], [1]]
      ≠ cost_func 1 [2] [0, 2]
        [fun _ => (0 : ℝ), fun i => if i = 0 then Real.log 3 else 0] [[1, 0], [0, 1]] := by
  have hx : Real.exp (Real.log 3) = 3 := Real.exp_log (by norm_num)
  have h1 : ypfSample 1 [2] [0, 2] (fun _ => (0 : ℝ)) = [1 / 2, 1 / 2] := by
    rw [ypf_pair_eq]
    norm_num
  have h2 : ypfSample 1 [2] [0, 2] (fun i => if i = 0 then Real.log 3 else 0)
      = [3 / 4, 1 / 4] := by
    rw [ypf_pair_eq]
    norm_num [hx]
  have hloghalf : -Real.log (1 / 2) = Real.log 2 := by
    rw [one_div, Real.log_inv, neg_neg]
  have hlogquarter : -Real.log (1 / 4) = Real.log 4 := by
    rw [one_div, Real.log_inv, neg_neg]
  have hcode : cost_func 1 [2] [0, 2]
      [fun _ => (0 : ℝ), fun i => if i = 0 then Real.log 3 else 0] [[0], [1]]
      = Real.log 2 / 2 := by
    simp only [cost_func, List.map_cons, List.map_nil, List.flatten_cons,
      List.flatten_nil, List.append_nil, h1, h2]
    norm_num [Finset.sum_range_succ, hloghalf]
  have hclaim : cost_func 1 [2] [0, 2]
      [fun _ => (0 : ℝ), fun i => if i = 0 then Real.log 3 else 0] [[1, 0], [0, 1]]
      = (Real.log 2 + Real.log 4) / 4 := by
    simp only [cost_func, List.map_cons, List.map_nil, List.flatten_cons,
      List.flatten_nil, List.append_nil, h1, h2]
    norm_num [Finset.sum_range_succ, hloghalf, hlogquarter]
  refine ⟨hcode, hclaim, ?_⟩
  rw [hcode, hclaim]
  have h4 : Real.log 4 = 2 * Real.log 2 := by
    rw [show (4 : ℝ) = 2 ^ 2 by norm_num, Real.log_pow]
    norm_num
  have hpos : 0 < Real.log 2 := Real.log_pos (by norm_num)
  intro h
  rw [h4] at h
  nlinarith

/-! ### C3: the gradient engine -/

lemma update_fold_apply (γ : ℝ) (hid : ℕ) (wa : ℝ) (a : ℕ → ℝ) :
    ∀ (m : ℕ) (i : ℕ),
      ((List.range m).foldl
        (fun b k => Function.update b (hid + k) (Real.exp (γ * b (hid + k)) / wa)) a) i
      = if hid ≤ i ∧ i < hid + m then Real.exp (γ * a i) / wa else a i := by
  intro m
  induction m with
  | zero =>
    intro i
    rw [if_neg (by omega)]
    rfl
  | succ m ih =>
    intro i
    rw [List.range_succ, List.foldl_append, List.foldl_cons, List.foldl_nil,
      Function.update_apply]
    by_cases hi : i = hid + m
    · subst hi
      rw [if_pos rfl]
      have hb : ((List.range m).foldl
          (fun b k => Function.update b (hid + k) (Real.exp (γ * b (hid + k)) / wa)) a)
          (hid + m) = a (hid + m) := by
        rw [ih (hid + m), if_neg (by omega)]
      rw [hb, if_pos (by omega)]
    · rw [if_neg hi, ih i]
      by_cases hc : hid ≤ i ∧ i < hid + m
      · rw [if_pos hc, if_pos (by omega)]
      · rw [if_neg hc, if_neg (by omega)]

/-- Pointwise value of `applyGroup`: inside the group's index range the
cell holds `exp(γ·a[i]) / wa` with `wa` computed from the pre-overwrite
values (every cell is read before it is written); outside, the array is
untouched. -/
lemma applyGroup_apply (γ : ℝ) (s hid : ℕ) (a : ℕ → ℝ) (i : ℕ) :
    applyGroup γ s hid a i =
      if hid ≤ i ∧ i < hid + s
      then Real.exp (γ * a i) / ∑ k ∈ Finset.range s, Real.exp (γ * a (hid + k))
      else a i := by
  simp only [applyGroup]
  exact update_fold_apply γ hid _ a s i

lemma softmaxInPlace_fold (γ : ℝ) (sizes offsets : List ℕ) (r : ℕ → ℝ)
    (hoff : ∀ m, m ≤ sizes.length →
      offsets.getD m 0 = ∑ i ∈ Finset.range m, sizes.getD i 0) :
    ∀ m, m ≤ sizes.length →
      (∀ i, (∑ i2 ∈ Finset.range m, sizes.getD i2 0) ≤ i →
        ((List.range m).foldl
          (fun a j => applyGroup γ (sizes.getD j 0) (offsets.getD j 0) a) r) i = r i)
      ∧ (∀ j k, j < m → k < sizes.getD j 0 →
        ((List.range m).foldl
          (fun a j => applyGroup γ (sizes.getD j 0) (offsets.getD j 0) a) r)
            ((∑ i2 ∈ Finset.range j, sizes.getD i2 0) + k)
          = Real.exp (γ * r ((∑ i2 ∈ Finset.range j, sizes.getD i2 0) + k))
            / ∑ kk ∈ Finset.range (sizes.getD j 0),
                Real.exp (γ * r ((∑ i2 ∈ Finset.range j, sizes.getD i2 0) + kk))) := by
  intro m
  induction m with
  | zero =>
    intro _
    exact ⟨fun i _ => rfl, fun j k hj _ => absurd hj (Nat.not_lt_zero j)⟩
  | succ m ih =>
    intro hm
    obtain ⟨P, Q⟩ := ih (Nat.le_of_succ_le hm)
    have hoffm : offsets.getD m 0 = ∑ i2 ∈ Finset.range m, sizes.getD i2 0 :=
      hoff m (Nat.le_of_succ_le hm)
    constructor
    · intro i hi
      rw [List.range_succ, List.foldl_append, List.foldl_cons, List.foldl_nil,
        applyGroup_apply, hoffm]
      rw [Finset.sum_range_succ] at hi
      rw [if_neg (by omega)]
      exact P i (by omega)
    · intro j k hj hk
      rw [List.range_succ, List.foldl_append, List.foldl_cons, List.foldl_nil,
        applyGroup_apply, hoffm]
      rcases Nat.lt_succ_iff_lt_or_eq.1 hj with hjm | rfl
      · have hmono : (∑ i2 ∈ Finset.range (j + 1), sizes.getD i2 0)
            ≤ ∑ i2 ∈ Finset.range m, sizes.getD i2 0 :=
          Finset.sum_le_sum_of_subset (Finset.range_subset.2 hjm)
        rw [Finset.sum_range_succ] at hmono
        rw [if_neg (by omega)]
        exact Q j k hjm hk
      · rw [if_pos (by omega)]
        have hsum : (∑ kk ∈ Finset.range (sizes.getD j 0),
            Real.exp (γ * ((List.range j).foldl
              (fun a j2 => applyGroup γ (sizes.getD j2 0) (offsets.getD j2 0) a) r)
              ((∑ i2 ∈ Finset.range j, sizes.getD i2 0) + kk)))
            = ∑ kk ∈ Finset.range (sizes.getD j 0),
                Real.exp (γ * r ((∑ i2 ∈ Finset.range j, sizes.getD i2 0) + kk)) :=
          Finset.sum_congr rfl fun kk _ => by
            rw [P ((∑ i2 ∈ Finset.range j, sizes.getD i2 0) + kk) (Nat.le_add_right _ _)]
        rw [hsum, P ((∑ i2 ∈ Finset.range j, sizes.getD i2 0) + k) (Nat.le_add_right _ _)]

/-- The in-place group-by-group softmax overwrite of `_cost_func_grad`
computes, at each in-range position, exactly the clean per-group
softmax of the original row — the groups' ranges are disjoint and
consecutive, so no group reads another group's overwritten values. -/
lemma softmaxInPlace_eq (γ : ℝ) (sizes : List ℕ) (r : ℕ → ℝ) (j k : ℕ)
    (hj : j < sizes.length) (hk : k < sizes.getD j 0) :
    softmaxInPlace γ sizes (get_y_scale_param sizes).2 r
        ((get_y_scale_param sizes).2.getD j 0 + k)
      = (softmaxGroup γ (sizes.getD j 0) ((get_y_scale_param sizes).2.getD j 0) r).getD k 0 := by
  have hoff : ∀ m, m ≤ sizes.length →
      (get_y_scale_param sizes).2.getD m 0 = ∑ i ∈ Finset.range m, sizes.getD i 0 :=
    fun m hm => get_y_scale_param_offsets sizes m hm
  obtain ⟨_, Q⟩ := softmaxInPlace_fold γ sizes (get_y_scale_param sizes).2 r hoff
    sizes.length (le_refl _)
  rw [softmaxGroup_getD _ _ _ _ _ hk]
  simp only [softmaxInPlace]
  rw [hoff j (le_of_lt hj)]
  exact Q j k hj hk

lemma gradStep_snd (A : Adapter) (γ : ℝ) (sizes offsets : List ℕ)
    (θ : List ℝ) (xs ys : List (List ℝ)) (st : (ℕ → ℝ) × List ℝ) (h : ℕ) :
    (gradStep A γ sizes offsets θ xs ys st h).2
      = A.bpParams st.2 (xs.getD h []) (gradObsWeights A γ sizes offsets θ xs ys h) := rfl

lemma gradStep_fst_apply (A : Adapter) (γ : ℝ) (sizes offsets : List ℕ)
    (θ : List ℝ) (xs ys : List (List ℝ)) (st : (ℕ → ℝ) × List ℝ) (h i : ℕ) :
    (gradStep A γ sizes offsets θ xs ys st h).1 i
      = st.1 i + A.bpGrad st.2 (xs.getD h [])
          (gradObsWeights A γ sizes offsets θ xs ys h) i := rfl

lemma cost_func_grad_fold (A : Adapter) (γ : ℝ) (sizes offsets : List ℕ)
    (θ : List ℝ) (xs ys : List (List ℝ)) :
    ∀ n,
      ((List.range n).foldl (gradStep A γ sizes offsets θ xs ys) ((fun _ => 0), θ)).2
        = bpParamSeq A γ sizes offsets θ xs ys n
      ∧ ∀ i, ((List.range n).foldl (gradStep A γ sizes offsets θ xs ys) ((fun _ => 0), θ)).1 i
          = ∑ h ∈ Finset.range n,
              A.bpGrad (bpParamSeq A γ sizes offsets θ xs ys h) (xs.getD h [])
                (gradObsWeights A γ sizes offsets θ xs ys h) i := by
  intro n
  induction n with
  | zero =>
    exact ⟨rfl, fun i => by simp⟩
  | succ n ih =>
    rw [List.range_succ, List.foldl_append, List.foldl_cons, List.foldl_nil]
    constructor
    · rw [gradStep_snd, ih.1]
      rfl
    · intro i
      rw [gradStep_fst_apply, ih.2 i, ih.1, Finset.sum_range_succ]

/-- C3 (confirmed): `_cost_func_grad` returns the sum over samples of
the adapter's backprop gradients, divided by the sample count, where
each sample's single backprop call receives the weighted observable
whose weight at the one-hot position `offsets[j] + k` (within the
observable's width) is `y_exp_ratio * (p - y)` with `p` the clean
grouped-softmax probability of that position and `y` the one-hot target
bit. -/
theorem C3_theorem (A : Adapter) (γ : ℝ) (sizes : List ℕ) (θ : List ℝ)
    (xs ys : List (List ℝ)) :
    ((cost_func_grad A γ sizes (get_y_scale_param sizes).2 θ xs ys).1
      = fun i => (∑ h ∈ Finset.range xs.length,
          A.bpGrad (bpParamSeq A γ sizes (get_y_scale_param sizes).2 θ xs ys h)
            (xs.getD h [])
            (gradObsWeights A γ sizes (get_y_scale_param sizes).2 θ xs ys h) i)
          / (xs.length : ℝ))
    ∧ ∀ h j k, j < sizes.length → k < sizes.getD j 0 →
        (get_y_scale_param sizes).2.getD j 0 + k < (ys.headD []).length →
        gradObsWeights A γ sizes (get_y_scale_param sizes).2 θ xs ys h
            ((get_y_scale_param sizes).2.getD j 0 + k)
          = γ * ((softmaxGroup γ (sizes.getD j 0) ((get_y_scale_param sizes).2.getD j 0)
                (A.run (xs.getD h []) θ)).getD k 0
              - (ys.getD h []).getD ((get_y_scale_param sizes).2.getD j 0 + k) 0) := by
  constructor
  · simp only [cost_func_grad]
    funext i
    rw [(cost_func_grad_fold A γ sizes (get_y_scale_param sizes).2 θ xs ys xs.length).2 i]
  · intro h j k hj hk hw
    simp only [gradObsWeights]
    rw [if_pos hw, softmaxInPlace_eq γ sizes (A.run (xs.getD h []) θ) j k hj hk]
    ring

/-- Witness for C3: concrete one-sample configuration with one group of
two classes; the weight at position 0 is `γ·(p₀ − y₀)`. -/
theorem C3_witness :
    (0 : ℕ) < ([2] : List ℕ).length
    ∧ (0 : ℕ) < ([2] : List ℕ).getD 0 0
    ∧ (get_y_scale_param [2]).2.getD 0 0 + 0 < (([[1, 0]] : List (List ℝ)).headD []).length
    ∧ gradObsWeights A0 1 [2] (get_y_scale_param [2]).2 [0] [[0]] [[1, 0]] 0
          ((get_y_scale_param [2]).2.getD 0 0 + 0)
        = 1 * ((softmaxGroup 1 (([2] : List ℕ).getD 0 0) ((get_y_scale_param [2]).2.getD 0 0)
              (A0.run (([[(0 : ℝ)]] : List (List ℝ)).getD 0 []) [0])).getD 0 0
            - (([[1, 0]] : List (List ℝ)).getD 0 []).getD
                ((get_y_scale_param [2]).2.getD 0 0 + 0) 0) :=
  ⟨by decide, by decide, by decide,
   (C3_theorem A0 1 [2] [0] [[(0 : ℝ)]] [[1, 0]]).2 0 0 0 (by decide) (by decide) (by decide)⟩

end SkQNN
